import Mathlib

/-!
Shallow embedding of `src/utils/build.ts` (class `Build`) of sp-build-tasks.

Paths are modelled as POSIX path strings.  `path.normalize`, `path.join` and
`path.parse` are the Node `path.posix` functions the code delegates to; they
are embedded segment-wise over `List Char` (a relative path's leading `..`
segments are kept, an absolute path's are dropped, `.` and empty segments are
removed, a trailing separator is preserved, the empty path normalizes to `.`).

The file system is an association list from path to file content; external
collaborators (Handlebars, uglify-js, clean-css, node-sass, the Bootstrap 3
bundle) are function or value parameters.  Asynchronous operations are
modelled by their settled outcome: an `Except` value for the resolved /
rejected promise, paired with the file system after the committed writes.
-/

namespace SpBuild

/-- Split a character list on `'/'`: the pieces between separators
(Node's `normalizeString` walks the path separator by separator). -/
def splitSlash : List Char → List (List Char)
  | [] => [[]]
  | c :: cs =>
    if c = '/' then [] :: splitSlash cs
    else
      match splitSlash cs with
      | [] => [[c]]
      | s :: ss => (c :: s) :: ss

/-- Join path segments with `'/'`. -/
def joinSlash : List (List Char) → List Char
  | [] => []
  | [s] => s
  | s :: s' :: ss => s ++ '/' :: joinSlash (s' :: ss)

/-- The `".."` path segment. -/
def dd : List Char := ['.', '.']

/-- One step of Node `normalizeString`'s segment processing: empty and `"."`
segments are dropped; `".."` pops the last real segment, and above the root it
is kept for a relative path (`aa` = allowAboveRoot) and dropped for an
absolute one; any other segment is pushed.  `stk` is the reversed list of
segments emitted so far. -/
def normStep (aa : Bool) (stk : List (List Char)) (seg : List Char) : List (List Char) :=
  if seg = [] then stk
  else if seg = ['.'] then stk
  else if seg = dd then
    match stk with
    | [] => if aa then [dd] else []
    | top :: rest => if top = dd then (if aa then dd :: stk else stk) else rest
  else seg :: stk

/-- Node `normalizeString`: the normalized segment list of a path. -/
def normCore (aa : Bool) (segs : List (List Char)) : List (List Char) :=
  (segs.foldl (normStep aa) []).reverse

/-- The path starts with the separator (Node: `charCodeAt(0)` is `'/'`). -/
def isAbs (p : List Char) : Bool := p.head? == some '/'

/-- The path ends with the separator (Node: last char is `'/'`). -/
def hasTrail (p : List Char) : Bool := p.getLast? == some '/'

/-- Reassemble Node `path.posix.normalize`'s result from the normalized
segment list and the absolute / trailing-separator flags. -/
def rebuild (ab tr : Bool) (core : List (List Char)) : List Char :=
  if core = [] then (if ab then ['/'] else if tr then ['.', '/'] else ['.'])
  else (if ab then ['/'] else []) ++ joinSlash core ++ (if tr then ['/'] else [])

/-- Node `path.posix.normalize` over `List Char`. -/
def normalizeL (p : List Char) : List Char :=
  if p = [] then ['.']
  else rebuild (isAbs p) (hasTrail p) (normCore (!isAbs p) (splitSlash p))

/-- Node `path.normalize` (posix). -/
def normalize (s : String) : String := ⟨normalizeL s.data⟩

/-- JS `s.indexOf(pre) === 0`: `pre` is a character prefix of `s`. -/
def strStartsWith (s pre : String) : Bool := pre.data.isPrefixOf s.data

/-- Node `path.join(a, b)` (posix): empty arguments are skipped, the rest are
joined with `'/'` and the result is normalized; with no nonempty argument the
result is `"."`. -/
def joinP (a b : String) : String :=
  if a.data = [] then (if b.data = [] then "." else normalize b)
  else if b.data = [] then normalize a
  else normalize ⟨a.data ++ '/' :: b.data⟩

/-- build.ts lines 214–223 (used once with `root = settings.src` for the
template source and once with `root = settings.dist` for the target):
normalize the candidate and the root; if the normalized candidate does not
start with the normalized root as a character prefix, join root + candidate,
otherwise keep the normalized candidate. -/
def resolve (p root : String) : String :=
  if strStartsWith (normalize p) (normalize root) then normalize p
  else joinP (normalize root) (normalize p)

/-- Index of the last occurrence of `c`, if any. -/
def lastIdxOf (c : Char) : List Char → Option Nat
  | [] => none
  | x :: xs =>
    match lastIdxOf c xs with
    | some i => some (i + 1)
    | none => if x = c then some 0 else none

/-- Node `path.parse(p).base` (posix): trailing separators are ignored and
the part after the last remaining separator is the base. -/
def parseBase (p : String) : String :=
  ⟨(((p.data.reverse).dropWhile (· = '/')).takeWhile (· ≠ '/')).reverse⟩

/-- Node `path.parse(p).ext` (posix): the suffix of the base from its last
dot; empty when the base has no dot, when the only dot is the leading
character, or when the base is `".."`. -/
def parseExt (p : String) : String :=
  match lastIdxOf '.' (parseBase p).data with
  | none => ""
  | some i =>
    if i = 0 then "" else if (parseBase p).data = dd then "" else ⟨(parseBase p).data.drop i⟩

/-- Node `path.parse(p).name` (posix): the base without the extension. -/
def parseName (p : String) : String :=
  match lastIdxOf '.' (parseBase p).data with
  | none => parseBase p
  | some i =>
    if i = 0 then parseBase p
    else if (parseBase p).data = dd then parseBase p
    else ⟨(parseBase p).data.take i⟩

/-- build.ts line 227: `` `${fileParse.name}${fileParse.ext}` `` for
`fileParse = path.parse(target)`. -/
def fileNameOf (target : String) : String := parseName target ++ parseExt target

/-! ## File-system model -/

/-- Error kind of a failed file-system call: `enoent` for a read of a missing
path, `invalidPath` for a read of an `undefined` path. -/
inductive IOErr where
  | enoent (path : String)
  | invalidPath
deriving DecidableEq

/-- The file system: newest write first, `lookupFile` finds the newest. -/
abbrev FS := List (String × String)

def lookupFile : FS → String → Option String
  | [], _ => none
  | (k, v) :: rest, p => if k = p then some v else lookupFile rest p

def writeFile (fs : FS) (p c : String) : FS := (p, c) :: fs

/-- Model of `fs.readFileSync(path, encoding)`: rejects an `undefined` path, errors on
a missing file, returns the content otherwise. -/
def readFileSync (fs : FS) (p : Option String) : Except IOErr String :=
  match p with
  | none => .error .invalidPath
  | some path =>
    match lookupFile fs path with
    | some c => .ok c
    | none => .error (.enoent path)

/-- Model of the `if (distPath)` blocks: `mkdirp.sync` of the parent directory
followed by `fs.writeFileSync(distPath, content)` when `distPath` is provided
(directory creation does not affect the file map). -/
def distWrite (fs : FS) (distPath : Option String) (content : String) : FS :=
  match distPath with
  | some d => writeFile fs d content
  | none => fs

/-! ## Build settings and operations -/

/-- Interface `IBuildSettings` after the constructor defaults (build.ts lines 24–32);
the text encoding does not affect the modelled content. -/
structure BuildSettings where
  src : String := "./src"
  dist : String := "./dist"

/-- Interface `IMinifyContent`. -/
structure MinifyParams where
  content : Option String := none
  srcPath : Option String := none
  distPath : Option String := none

/-- Model of `content || fs.readFileSync(srcPath, encoding)` (build.ts lines 167 and
187): JS `||` falls through on a missing *or empty* content string. -/
def pickMinifySource (fs : FS) (content srcPath : Option String) : Except IOErr String :=
  match content with
  | some c => if c = "" then readFileSync fs srcPath else .ok c
  | none => readFileSync fs srcPath

/-- build.ts lines 165–183, `minifyJsContent`; `uglify` is the external
minifier (the `.code` field of `uglifyJS.minify`'s output). -/
def minifyJsContent (uglify : String → String) (fs : FS) (p : MinifyParams) :
    Except IOErr (String × FS) :=
  match pickMinifySource fs p.content p.srcPath with
  | .error e => .error e
  | .ok text =>
    let code := uglify text
    .ok (code, distWrite fs p.distPath code)

/-- build.ts lines 185–197, `minifyCssContent`; `cleanCss` is the external
minifier (the `.styles` field of `CleanCSS().minify`'s output). -/
def minifyCssContent (cleanCss : String → String) (fs : FS) (p : MinifyParams) :
    Except IOErr (String × FS) :=
  match pickMinifySource fs p.content p.srcPath with
  | .error e => .error e
  | .ok text =>
    let styles := cleanCss text
    .ok (styles, distWrite fs p.distPath styles)

/-- Interface `IBuildCustomCssFromScss`. -/
structure ScssParams where
  file : Option String := none
  data : Option String := none
  outputStyle : Option String := none
  outFile : Option String := none
  sourceMap : Option Bool := none
  sourceMapContents : Option Bool := none

/-- The options record handed to `sass.render` (build.ts line 134). -/
structure SassOptions where
  file : Option String
  data : Option String
  outputStyle : String
  outFile : Option String
  sourceMap : Option Bool
  sourceMapContents : Option Bool
deriving DecidableEq

/-- JS truthiness of an optional string: present and nonempty. -/
def truthyStr : Option String → Bool
  | some s => s ≠ ""
  | none => false

/-- build.ts lines 127–141, `buildCustomCssFromScss`, up to the `sass.render`
call whose options record is the result.  Line 130 is
`data = data || file ? fs.readFileSync(file, encoding).toString() : null;`
which JS parses as `data = (data || file) ? fs.readFileSync(file, ...) : null`
(`||` binds tighter than `?:`), so whenever either `data` or `file` is truthy
the `data` option is replaced by the eagerly read content of `file`. -/
def buildCustomCssFromScss (fs : FS) (p : ScssParams) : Except IOErr SassOptions :=
  match (if truthyStr p.data || truthyStr p.file
         then (readFileSync fs p.file).map some
         else .ok none) with
  | .error e => .error e
  | .ok d =>
    let st := match p.outputStyle with
      | some s => if s = "" then "compressed" else s
      | none => "compressed"
    .ok { file := p.file, data := d, outputStyle := st,
          outFile := p.outFile, sourceMap := p.sourceMap,
          sourceMapContents := p.sourceMapContents }

/-- Interface `IConcatFilesContent`. -/
structure ConcatParams where
  filesArr : Option (List String) := none
  distPath : Option String := none

/-- JS `Array.prototype.join('\n')` (the class field `EOL = '\n'`). -/
def joinNL : List String → String
  | [] => ""
  | [s] => s
  | s :: s' :: rest => s ++ "\n" ++ joinNL (s' :: rest)

/-- The read loop of `concatFilesContent` (build.ts lines 147–155): each
entry in order, the `"bootstrap3"` token expands to the generated bundle
`b3`, any other entry is read synchronously; the first failure aborts. -/
def readAll (b3 : String) (fs : FS) : List String → Except IOErr (List String)
  | [] => .ok []
  | fp :: rest =>
    match (if fp = "bootstrap3" then Except.ok b3 else readFileSync fs (some fp)) with
    | .error e => .error e
    | .ok c =>
      match readAll b3 fs rest with
      | .error e => .error e
      | .ok cs => .ok (c :: cs)

/-- build.ts lines 144–163, `concatFilesContent`: read every entry, then join
with the newline separator, write to `distPath` when provided and return the
joined content.  A failed read rejects before anything is written, so the
file system is returned unchanged in that case. -/
def concatFilesContent (b3 : String) (fs : FS) (p : ConcatParams) :
    Except IOErr String × FS :=
  match readAll b3 fs (p.filesArr.getD []) with
  | .error e => (.error e, fs)
  | .ok cs => (.ok (joinNL cs), distWrite fs p.distPath (joinNL cs))

/-! ## Handlebars template compilation -/

/-- A JS data value in a template data context. -/
inductive JVal where
  | str (s : String)
  | num (n : Int)
  | boolean (b : Bool)
  | null
deriving DecidableEq

/-- A JS object used as a template data context: its own enumerable fields. -/
abbrev DataMap := String → Option JVal

/-- build.ts lines 225–228: `data = { ...data, fileName: fileName }` — a
fresh object holding every field of `d` plus `fileName`, the literal written
after the spread winning over any spread-in `fileName`. -/
def augment (d : DataMap) (fileName : String) : DataMap :=
  fun k => if k = "fileName" then some (JVal.str fileName) else d k

/-- Interface `ICompileHbsTemplate`. -/
structure HbsParams where
  source : String
  target : String
  data : DataMap

/-- build.ts lines 211–247, `compileHbsTemplate`: resolve `source` against
`settings.src` and `target` against `settings.dist`, augment the data with
the resolved target's `name + ext`, read the resolved source (a read error
rejects the promise with it), render through the template engine `hbs`,
write the rendered body at the resolved target and resolve with the body and
the resolved target path. -/
def compileHbsTemplate (hbs : String → DataMap → String) (st : BuildSettings)
    (fs : FS) (p : HbsParams) : Except IOErr ((String × String) × FS) :=
  let source := resolve p.source st.src
  let target := resolve p.target st.dist
  let data := augment p.data (fileNameOf target)
  match lookupFile fs source with
  | none => .error (.enoent source)
  | some sourceBody =>
    let targetBody := hbs sourceBody data
    .ok ((targetBody, target), writeFile fs target targetBody)

/-- One entry of `ICompileHbsTemplates.files`. -/
structure HbsFile where
  source : String
  target : String

/-- build.ts lines 249–258, `compileHbsTemplates`: sequentially await
`compileHbsTemplate` for each file with the shared `data`, collecting the
results in order; the first rejection aborts the batch (writes already
committed stay). -/
def compileHbsTemplates (hbs : String → DataMap → String) (st : BuildSettings)
    (data : DataMap) : FS → List HbsFile → Except IOErr (List (String × String)) × FS
  | fs, [] => (.ok [], fs)
  | fs, f :: rest =>
    match compileHbsTemplate hbs st fs { source := f.source, target := f.target, data := data } with
    | .error e => (.error e, fs)
    | .ok (res, fs₁) =>
      match compileHbsTemplates hbs st data fs₁ rest with
      | (.error e, fs₂) => (.error e, fs₂)
      | (.ok rs, fs₂) => (.ok (res :: rs), fs₂)

/-! ## Normal forms of the path model -/

/-- A real path segment: nonempty, not `"."`, separator-free. -/
def GoodSeg (s : List Char) : Prop := s ≠ [] ∧ s ≠ ['.'] ∧ '/' ∉ s

/-- Invariant of `normStep`'s reversed segment stack: every entry is a real
segment and the `".."` entries form a suffix (none unless above-root segments
are allowed). -/
def StackOk (aa : Bool) (stk : List (List Char)) : Prop :=
  (∀ s ∈ stk, GoodSeg s) ∧
  ∃ front k, stk = front ++ List.replicate k dd ∧ dd ∉ front ∧ (aa = false → k = 0)

/-- Normal form of a `normCore` result: every entry is a real segment and the
`".."` entries form a prefix (none unless above-root segments are allowed). -/
def CoreOk (aa : Bool) (core : List (List Char)) : Prop :=
  (∀ s ∈ core, GoodSeg s) ∧
  ∃ k rest, core = List.replicate k dd ++ rest ∧ dd ∉ rest ∧ (aa = false → k = 0)

instance {ε α : Type} [DecidableEq ε] [DecidableEq α] : DecidableEq (Except ε α) := fun a b =>
  match a, b with
  | .ok x, .ok y =>
    if h : x = y then .isTrue (by rw [h]) else .isFalse (fun hh => h (Except.ok.inj hh))
  | .ok _, .error _ => .isFalse (fun hh => Except.noConfusion hh)
  | .error _, .ok _ => .isFalse (fun hh => Except.noConfusion hh)
  | .error x, .error y =>
    if h : x = y then .isTrue (by rw [h]) else .isFalse (fun hh => h (Except.error.inj hh))

/-! ## Lemmas about splitting and joining on the separator -/

theorem splitSlash_ne_nil (p : List Char) : splitSlash p ≠ [] := by
  induction p with
  | nil => simp [splitSlash]
  | cons c cs ih =>
    simp only [splitSlash]
    split
    · simp
    · split <;> simp

theorem splitSlash_cons_slash (cs : List Char) :
    splitSlash ('/' :: cs) = [] :: splitSlash cs := by
  simp [splitSlash]

theorem splitSlash_cons_ne {c : Char} (hc : c ≠ '/') (cs : List Char) :
    splitSlash (c :: cs) =
      match splitSlash cs with
      | [] => [[c]]
      | s :: ss => (c :: s) :: ss := by
  simp only [splitSlash, if_neg hc]

theorem splitSlash_flat {p : List Char} (h : '/' ∉ p) : splitSlash p = [p] := by
  induction p with
  | nil => rfl
  | cons c cs ih =>
    have hc : c ≠ '/' := fun e => h (e ▸ List.mem_cons_self c cs)
    have hcs : '/' ∉ cs := fun m => h (List.mem_cons_of_mem _ m)
    rw [splitSlash_cons_ne hc, ih hcs]

theorem splitSlash_append_slash {s : List Char} (h : '/' ∉ s) (t : List Char) :
    splitSlash (s ++ '/' :: t) = s :: splitSlash t := by
  induction s with
  | nil => exact splitSlash_cons_slash t
  | cons c cs ih =>
    have hc : c ≠ '/' := fun e => h (e ▸ List.mem_cons_self c cs)
    have hcs : '/' ∉ cs := fun m => h (List.mem_cons_of_mem _ m)
    rw [List.cons_append, splitSlash_cons_ne hc, ih hcs]

theorem splitSlash_append_final_slash (a : List Char) :
    splitSlash (a ++ ['/']) = splitSlash a ++ [[]] := by
  induction a with
  | nil => rfl
  | cons c cs ih =>
    by_cases hc : c = '/'
    · subst hc
      rw [List.cons_append, splitSlash_cons_slash, splitSlash_cons_slash, ih, List.cons_append]
    · obtain ⟨s, ss, hss⟩ : ∃ s ss, splitSlash cs = s :: ss := by
        cases h' : splitSlash cs with
        | nil => exact absurd h' (splitSlash_ne_nil cs)
        | cons s ss => exact ⟨s, ss, rfl⟩
      rw [List.cons_append, splitSlash_cons_ne hc, splitSlash_cons_ne hc, ih, hss,
        List.cons_append]
      rfl

theorem splitSlash_flatFree : ∀ {p : List Char}, ∀ s ∈ splitSlash p, '/' ∉ s := by
  intro p
  induction p with
  | nil =>
    intro s hs
    simp only [splitSlash, List.mem_singleton] at hs
    subst hs; simp
  | cons c cs ih =>
    intro s hs
    by_cases hc : c = '/'
    · subst hc
      simp only [splitSlash, if_pos rfl] at hs
      rcases List.mem_cons.mp hs with h | h
      · subst h; simp
      · exact ih s h
    · simp only [splitSlash, if_neg hc] at hs
      cases h' : splitSlash cs with
      | nil => exact absurd h' (splitSlash_ne_nil cs)
      | cons s₀ ss =>
        rw [h'] at hs
        rcases List.mem_cons.mp hs with h | h
        · subst h
          intro hm
          rcases List.mem_cons.mp hm with h | h
          · exact hc h.symm
          · exact ih s₀ (h' ▸ List.mem_cons_self s₀ ss) h
        · exact ih s (h' ▸ List.mem_cons_of_mem _ h)

theorem splitSlash_joinSlash : ∀ {l : List (List Char)}, l ≠ [] →
    (∀ s ∈ l, '/' ∉ s) → splitSlash (joinSlash l) = l := by
  intro l
  induction l with
  | nil => intro h; exact absurd rfl h
  | cons s ss ih =>
    intro _ h
    cases ss with
    | nil =>
      rw [show joinSlash [s] = s from rfl]
      exact splitSlash_flat (h s (by simp))
    | cons s' ss' =>
      rw [show joinSlash (s :: s' :: ss') = s ++ '/' :: joinSlash (s' :: ss') from rfl]
      rw [splitSlash_append_slash (h s (by simp)),
        ih (by simp) (fun x hx => h x (List.mem_cons_of_mem _ hx))]

theorem joinSlash_ne_nil : ∀ {l : List (List Char)}, l ≠ [] →
    (∀ s ∈ l, s ≠ []) → joinSlash l ≠ [] := by
  intro l
  induction l with
  | nil => intro h; exact absurd rfl h
  | cons s ss _ =>
    intro _ h
    cases ss with
    | nil => exact h s (by simp)
    | cons s' ss' =>
      rw [show joinSlash (s :: s' :: ss') = s ++ '/' :: joinSlash (s' :: ss') from rfl]
      simp

theorem joinSlash_head? {s : List Char} (ss : List (List Char)) (hs : s ≠ []) :
    (joinSlash (s :: ss)).head? = s.head? := by
  cases ss with
  | nil => rfl
  | cons s' ss' =>
    rw [show joinSlash (s :: s' :: ss') = s ++ '/' :: joinSlash (s' :: ss') from rfl,
      List.head?_append]
    cases s with
    | nil => exact absurd rfl hs
    | cons a as => rfl

theorem getLast?_isSome_of_ne_nil {α : Type} : ∀ {l : List α}, l ≠ [] → ∃ a, l.getLast? = some a := by
  intro l
  induction l with
  | nil => intro h; exact absurd rfl h
  | cons a as ih =>
    intro _
    cases as with
    | nil => exact ⟨a, rfl⟩
    | cons b bs =>
      rw [List.getLast?_cons_cons]
      exact ih (by simp)

theorem getLast?_append_right {α : Type} (l₁ : List α) {l₂ : List α} (h : l₂ ≠ []) :
    (l₁ ++ l₂).getLast? = l₂.getLast? := by
  obtain ⟨a, ha⟩ := getLast?_isSome_of_ne_nil h
  rw [List.getLast?_append, ha]
  rfl

theorem mem_of_getLast?_eq : ∀ {l : List Char} {c : Char}, l.getLast? = some c → c ∈ l := by
  intro l
  induction l with
  | nil => intro c h; simp at h
  | cons a as ih =>
    intro c h
    cases as with
    | nil =>
      simp only [List.getLast?_singleton, Option.some.injEq] at h
      subst h; simp
    | cons b bs =>
      rw [List.getLast?_cons_cons] at h
      exact List.mem_cons_of_mem _ (ih h)

theorem joinSlash_getLast?_ne : ∀ {l : List (List Char)}, l ≠ [] →
    (∀ s ∈ l, s ≠ [] ∧ '/' ∉ s) → (joinSlash l).getLast? ≠ some '/' := by
  intro l
  induction l with
  | nil => intro h; exact absurd rfl h
  | cons s ss ih =>
    intro _ h
    cases ss with
    | nil =>
      intro hl
      exact (h s (by simp)).2 (mem_of_getLast?_eq hl)
    | cons s' ss' =>
      have hJ : joinSlash (s' :: ss') ≠ [] :=
        joinSlash_ne_nil (by simp) (fun x hx => (h x (List.mem_cons_of_mem _ hx)).1)
      rw [show joinSlash (s :: s' :: ss') = s ++ '/' :: joinSlash (s' :: ss') from rfl,
        getLast?_append_right s (by simp),
        show ('/' :: joinSlash (s' :: ss')) = ['/'] ++ joinSlash (s' :: ss') from rfl,
        getLast?_append_right ['/'] hJ]
      exact ih (by simp) (fun x hx => h x (List.mem_cons_of_mem _ hx))

/-! ## Lemmas about the segment stack of `normCore` -/

theorem normStep_nil_seg (aa : Bool) (stk : List (List Char)) : normStep aa stk [] = stk := rfl

theorem normStep_dot (aa : Bool) (stk : List (List Char)) : normStep aa stk ['.'] = stk := rfl

theorem normStep_dd_nil (aa : Bool) : normStep aa [] dd = if aa then [dd] else [] := rfl

theorem normStep_dd_cons (aa : Bool) (top : List Char) (rest : List (List Char)) :
    normStep aa (top :: rest) dd =
      if top = dd then (if aa then dd :: top :: rest else top :: rest) else rest := rfl

theorem normStep_push (aa : Bool) (stk : List (List Char)) {seg : List Char}
    (h0 : seg ≠ []) (h1 : seg ≠ ['.']) (h2 : seg ≠ dd) : normStep aa stk seg = seg :: stk := by
  unfold normStep
  rw [if_neg h0, if_neg h1, if_neg h2]

theorem goodSeg_dd : GoodSeg dd := by
  refine ⟨by simp [dd], by simp [dd], by simp [dd]⟩

theorem normStep_ok {aa : Bool} {stk : List (List Char)} {seg : List Char}
    (hseg : '/' ∉ seg) (h : StackOk aa stk) : StackOk aa (normStep aa stk seg) := by
  by_cases h0 : seg = []
  · rw [h0, normStep_nil_seg]; exact h
  by_cases h1 : seg = ['.']
  · rw [h1, normStep_dot]; exact h
  by_cases h2 : seg = dd
  · subst h2
    obtain ⟨hmem, front, k, hstk, hfr, hk⟩ := h
    cases stk with
    | nil =>
      rw [normStep_dd_nil]
      by_cases haa : aa = true
      · rw [if_pos haa]
        refine ⟨fun s hs => ?_, [], 1, by simp [List.replicate], by simp,
          fun hf => absurd haa (by simp [hf])⟩
        rw [List.mem_singleton] at hs
        rw [hs]; exact goodSeg_dd
      · rw [if_neg haa]
        exact ⟨by simp, [], 0, by simp, by simp, fun _ => rfl⟩
    | cons top rest =>
      rw [normStep_dd_cons]
      by_cases htop : top = dd
      · have hfront : front = [] := by
          cases front with
          | nil => rfl
          | cons f fs =>
            exfalso
            have hf : f = top := by
              rw [List.cons_append] at hstk
              exact (List.cons.inj hstk).1.symm
            exact hfr (by rw [hf, htop]; exact List.mem_cons_self _ _)
        subst hfront
        rw [List.nil_append] at hstk
        obtain ⟨k', rfl⟩ : ∃ k', k = k' + 1 := by
          cases k with
          | zero => rw [List.replicate] at hstk; exact absurd hstk (by simp)
          | succ k' => exact ⟨k', rfl⟩
        rw [if_pos htop]
        by_cases haa : aa = true
        · rw [if_pos haa]
          refine ⟨fun s hs => ?_, [], k' + 2, ?_, by simp, fun hf => absurd haa (by simp [hf])⟩
          · rcases List.mem_cons.mp hs with h | h
            · rw [h]; exact goodSeg_dd
            · exact hmem s h
          · rw [List.nil_append, hstk]
            simp [List.replicate_succ]
        · have haa' : aa = false := by
            cases aa with
            | false => rfl
            | true => exact absurd rfl haa
          exact absurd (hk haa') (by simp)
      · rw [if_neg htop]
        cases front with
        | nil =>
          exfalso
          rw [List.nil_append] at hstk
          cases k with
          | zero => rw [List.replicate] at hstk; exact absurd hstk (by simp)
          | succ k' =>
            rw [List.replicate_succ] at hstk
            exact htop (List.cons.inj hstk).1
        | cons f fs =>
          rw [List.cons_append] at hstk
          have hf : f = top := (List.cons.inj hstk).1.symm
          have hrest : rest = fs ++ List.replicate k dd := (List.cons.inj hstk).2
          refine ⟨fun s hs => hmem s (List.mem_cons_of_mem _ (hrest ▸ hs)), fs, k, hrest,
            fun hm => hfr (List.mem_cons_of_mem f hm), hk⟩
  · rw [normStep_push aa stk h0 h1 h2]
    obtain ⟨hmem, front, k, hstk, hfr, hk⟩ := h
    refine ⟨fun s hs => ?_, seg :: front, k, by rw [hstk, List.cons_append], ?_, hk⟩
    · rcases List.mem_cons.mp hs with h | h
      · rw [h]; exact ⟨h0, h1, hseg⟩
      · exact hmem s h
    · intro hm
      rcases List.mem_cons.mp hm with h | h
      · exact h2 h.symm
      · exact hfr h

theorem foldl_normStep_ok {aa : Bool} : ∀ (l : List (List Char)) (stk : List (List Char)),
    (∀ s ∈ l, '/' ∉ s) → StackOk aa stk → StackOk aa (l.foldl (normStep aa) stk) := by
  intro l
  induction l with
  | nil => intro stk _ h; exact h
  | cons s ss ih =>
    intro stk hl h
    rw [List.foldl_cons]
    exact ih _ (fun x hx => hl x (List.mem_cons_of_mem _ hx))
      (normStep_ok (hl s (List.mem_cons_self _ _)) h)

theorem stackOk_nil (aa : Bool) : StackOk aa [] :=
  ⟨by simp, [], 0, by simp, by simp, fun _ => rfl⟩

theorem normCore_ok (aa : Bool) {segs : List (List Char)} (h : ∀ s ∈ segs, '/' ∉ s) :
    CoreOk aa (normCore aa segs) := by
  obtain ⟨hmem, front, k, hstk, hfr, hk⟩ := foldl_normStep_ok segs [] h (stackOk_nil aa)
  unfold normCore
  refine ⟨fun s hsm => hmem s (List.mem_reverse.mp hsm), k, front.reverse, ?_,
    fun hm => hfr (List.mem_reverse.mp hm), hk⟩
  rw [hstk, List.reverse_append, List.reverse_replicate]

theorem foldl_dd {aa : Bool} (haa : aa = true) : ∀ (k j : Nat),
    (List.replicate k dd).foldl (normStep aa) (List.replicate j dd) = List.replicate (k + j) dd := by
  intro k
  induction k with
  | zero => intro j; simp
  | succ k' ih =>
    intro j
    rw [List.replicate_succ, List.foldl_cons]
    have hstep : normStep aa (List.replicate j dd) dd = List.replicate (j + 1) dd := by
      cases j with
      | zero =>
        rw [show List.replicate 0 dd = [] from rfl, normStep_dd_nil, haa, if_pos rfl]
        rfl
      | succ j' =>
        rw [List.replicate_succ, normStep_dd_cons, if_pos rfl, haa, if_pos rfl,
          ← List.replicate_succ, ← List.replicate_succ]
    rw [hstep, ih]
    congr 1
    omega

theorem foldl_push (aa : Bool) : ∀ (rest stk : List (List Char)),
    (∀ s ∈ rest, GoodSeg s ∧ s ≠ dd) → rest.foldl (normStep aa) stk = rest.reverse ++ stk := by
  intro rest
  induction rest with
  | nil => intro stk _; simp
  | cons s ss ih =>
    intro stk h
    rw [List.foldl_cons,
      normStep_push aa stk (h s (List.mem_cons_self _ _)).1.1
        (h s (List.mem_cons_self _ _)).1.2.1 (h s (List.mem_cons_self _ _)).2,
      ih _ (fun x hx => h x (List.mem_cons_of_mem _ hx))]
    simp

theorem normCore_id {aa : Bool} {core : List (List Char)} (h : CoreOk aa core) :
    normCore aa core = core := by
  obtain ⟨hmem, k, rest, hcore, hrest, hk⟩ := h
  unfold normCore
  rw [hcore, List.foldl_append]
  have h1 : (List.replicate k dd).foldl (normStep aa) [] = List.replicate k dd := by
    by_cases haa : aa = true
    · have := foldl_dd haa k 0
      simpa using this
    · have haa' : aa = false := by
        cases aa with
        | false => rfl
        | true => exact absurd rfl haa
      rw [hk haa']
      simp
  rw [h1, foldl_push aa rest _
    (fun s hs => ⟨hmem s (hcore ▸ List.mem_append_right _ hs), fun e => hrest (e ▸ hs)⟩),
    List.reverse_append, List.reverse_reverse, List.reverse_replicate]

/-! ## Idempotence of `normalize` -/

theorem foldl_skip_empties (aa : Bool) : ∀ (e stk : List (List Char)),
    (∀ s ∈ e, s = []) → e.foldl (normStep aa) stk = stk := by
  intro e
  induction e with
  | nil => intro stk _; rfl
  | cons s ss ih =>
    intro stk h
    rw [List.foldl_cons, h s (List.mem_cons_self _ _), normStep_nil_seg]
    exact ih stk (fun x hx => h x (List.mem_cons_of_mem _ hx))

theorem normCore_frame (aa : Bool) (core e₁ e₂ : List (List Char))
    (h1 : ∀ s ∈ e₁, s = []) (h2 : ∀ s ∈ e₂, s = []) :
    normCore aa (e₁ ++ core ++ e₂) = normCore aa core := by
  unfold normCore
  rw [List.foldl_append, List.foldl_append, foldl_skip_empties aa e₁ [] h1,
    foldl_skip_empties aa e₂ _ h2]

theorem isAbs_rebuild (ab tr : Bool) {core : List (List Char)} (hne : core ≠ [])
    (hgood : ∀ s ∈ core, GoodSeg s) : isAbs (rebuild ab tr core) = ab := by
  unfold rebuild
  rw [if_neg hne]
  cases ab with
  | true => rfl
  | false =>
    show isAbs (([] : List Char) ++ joinSlash core ++ (if tr = true then ['/'] else [])) = false
    rw [List.nil_append]
    obtain ⟨c₀, cs, hc⟩ : ∃ c₀ cs, core = c₀ :: cs := by
      cases core with
      | nil => exact absurd rfl hne
      | cons a b => exact ⟨a, b, rfl⟩
    have hc₀ : c₀ ≠ [] := (hgood c₀ (hc ▸ List.mem_cons_self _ _)).1
    obtain ⟨a, as, ha⟩ : ∃ a as, c₀ = a :: as := by
      cases c₀ with
      | nil => exact absurd rfl hc₀
      | cons a as => exact ⟨a, as, rfl⟩
    have hhead : (joinSlash core).head? = some a := by
      rw [hc, joinSlash_head? cs hc₀, ha]
      rfl
    have hane : a ≠ '/' := by
      intro e
      exact (hgood c₀ (hc ▸ List.mem_cons_self _ _)).2.2 (by rw [ha, e]; simp)
    unfold isAbs
    rw [List.head?_append, hhead,
      show (some a).or (if tr then ['/'] else []).head? = some a from rfl,
      beq_eq_false_iff_ne]
    intro e
    exact hane (Option.some.inj e)

theorem hasTrail_rebuild (ab tr : Bool) {core : List (List Char)} (hne : core ≠ [])
    (hgood : ∀ s ∈ core, GoodSeg s) : hasTrail (rebuild ab tr core) = tr := by
  have hJne : joinSlash core ≠ [] := joinSlash_ne_nil hne (fun s hs => (hgood s hs).1)
  unfold rebuild
  rw [if_neg hne]
  cases tr with
  | true =>
    show ((((if ab = true then ['/'] else []) ++ joinSlash core) ++ ['/']).getLast? == some '/') = true
    rw [List.getLast?_concat]
    rfl
  | false =>
    show hasTrail (((if ab = true then ['/'] else []) ++ joinSlash core) ++ []) = false
    rw [List.append_nil]
    have h := joinSlash_getLast?_ne hne (fun s hs => ⟨(hgood s hs).1, (hgood s hs).2.2⟩)
    unfold hasTrail
    rw [getLast?_append_right _ hJne, beq_eq_false_iff_ne]
    exact h

theorem splitSlash_rebuild (ab tr : Bool) {core : List (List Char)} (hne : core ≠ [])
    (hgood : ∀ s ∈ core, GoodSeg s) :
    splitSlash (rebuild ab tr core) =
      (if ab then [([] : List Char)] else []) ++ core ++
        (if tr then [([] : List Char)] else []) := by
  have hflat : ∀ s ∈ core, '/' ∉ s := fun s hs => (hgood s hs).2.2
  have hJ : splitSlash (joinSlash core) = core := splitSlash_joinSlash hne hflat
  unfold rebuild
  rw [if_neg hne]
  cases ab with
  | true =>
    cases tr with
    | true =>
      show splitSlash ((['/'] ++ joinSlash core) ++ ['/']) = ([[]] ++ core) ++ [[]]
      rw [show (['/'] ++ joinSlash core) ++ ['/'] = '/' :: (joinSlash core ++ ['/']) from by simp,
        splitSlash_cons_slash, splitSlash_append_final_slash, hJ]
      simp
    | false =>
      show splitSlash ((['/'] ++ joinSlash core) ++ []) = ([[]] ++ core) ++ []
      rw [List.append_nil, List.append_nil,
        show ['/'] ++ joinSlash core = '/' :: joinSlash core from rfl,
        splitSlash_cons_slash, hJ]
      simp
  | false =>
    cases tr with
    | true =>
      show splitSlash (([] ++ joinSlash core) ++ ['/']) = ([] ++ core) ++ [[]]
      rw [List.nil_append, List.nil_append, splitSlash_append_final_slash, hJ]
    | false =>
      show splitSlash (([] ++ joinSlash core) ++ []) = ([] ++ core) ++ []
      rw [List.nil_append, List.nil_append, List.append_nil, List.append_nil, hJ]

theorem rebuild_nil_fixed : ∀ ab tr : Bool, normalizeL (rebuild ab tr []) = rebuild ab tr [] := by
  decide

theorem rebuild_fixed {ab tr : Bool} {core : List (List Char)} (hne : core ≠ [])
    (h : CoreOk (!ab) core) : normalizeL (rebuild ab tr core) = rebuild ab tr core := by
  have hgood := h.1
  have hJne : joinSlash core ≠ [] := joinSlash_ne_nil hne (fun s hs => (hgood s hs).1)
  have hout : rebuild ab tr core ≠ [] := by
    unfold rebuild
    rw [if_neg hne]
    intro he
    simp only [List.append_eq_nil] at he
    exact hJne he.1.2
  unfold normalizeL
  rw [if_neg hout, isAbs_rebuild ab tr hne hgood, hasTrail_rebuild ab tr hne hgood,
    splitSlash_rebuild ab tr hne hgood,
    normCore_frame (!ab) core _ _ (by cases ab <;> simp) (by cases tr <;> simp),
    normCore_id h]

theorem normalizeL_idem (p : List Char) : normalizeL (normalizeL p) = normalizeL p := by
  by_cases hp : p = []
  · subst hp; decide
  · have hn : normalizeL p = rebuild (isAbs p) (hasTrail p) (normCore (!isAbs p) (splitSlash p)) := by
      unfold normalizeL
      rw [if_neg hp]
    rw [hn]
    cases hcore : normCore (!isAbs p) (splitSlash p) with
    | nil => exact rebuild_nil_fixed _ _
    | cons c₀ cs =>
      have hok : CoreOk (!isAbs p) (normCore (!isAbs p) (splitSlash p)) :=
        normCore_ok _ (fun s hs => splitSlash_flatFree s hs)
      rw [hcore] at hok
      exact rebuild_fixed (by simp) hok

theorem normalize_idem (s : String) : normalize (normalize s) = normalize s := by
  unfold normalize
  exact congrArg String.mk (normalizeL_idem s.data)

theorem joinP_normalized (a b : String) : normalize (joinP a b) = joinP a b := by
  unfold joinP
  by_cases ha : a.data = []
  · rw [if_pos ha]
    by_cases hb : b.data = []
    · rw [if_pos hb]
      decide
    · rw [if_neg hb]
      exact normalize_idem b
  · rw [if_neg ha]
    by_cases hb : b.data = []
    · rw [if_pos hb]
      exact normalize_idem a
    · rw [if_neg hb]
      exact normalize_idem _

theorem resolve_normalized (p root : String) : normalize (resolve p root) = resolve p root := by
  unfold resolve
  by_cases h : strStartsWith (normalize p) (normalize root) = true
  · rw [if_pos h]
    exact normalize_idem p
  · rw [if_neg h]
    exact joinP_normalized _ _

/-! ## Helper lemmas about the build operations -/

theorem readAll_missing (b3 : String) (fs : FS) : ∀ (l : List String),
    (∃ f ∈ l, f ≠ "bootstrap3" ∧ lookupFile fs f = none) →
    ∃ e, readAll b3 fs l = .error e := by
  intro l
  induction l with
  | nil =>
    intro h
    obtain ⟨f, hf, _⟩ := h
    exact absurd hf (List.not_mem_nil f)
  | cons x rest ih =>
    intro h
    obtain ⟨f, hf, hfb, hfn⟩ := h
    cases hread : (if x = "bootstrap3" then Except.ok b3 else readFileSync fs (some x)) with
    | error e =>
      refine ⟨e, ?_⟩
      have hstep : readAll b3 fs (x :: rest) =
          match (if x = "bootstrap3" then Except.ok b3 else readFileSync fs (some x)) with
          | .error e => .error e
          | .ok c =>
            match readAll b3 fs rest with
            | .error e => .error e
            | .ok cs => .ok (c :: cs) := rfl
      rw [hstep, hread]
    | ok c =>
      rcases List.mem_cons.mp hf with hfx | hfr
      · subst hfx
        rw [if_neg hfb] at hread
        have hrf : readFileSync fs (some f) = Except.error (.enoent f) := by
          have h' : readFileSync fs (some f) =
              (match lookupFile fs f with
                | some v => Except.ok v
                | none => Except.error (.enoent f)) := rfl
          rw [h', hfn]
        rw [hrf] at hread
        exact absurd hread (by simp)
      · obtain ⟨e, he⟩ := ih ⟨f, hfr, hfb, hfn⟩
        refine ⟨e, ?_⟩
        have hstep : readAll b3 fs (x :: rest) =
            match (if x = "bootstrap3" then Except.ok b3 else readFileSync fs (some x)) with
            | .error e => .error e
            | .ok c =>
              match readAll b3 fs rest with
              | .error e => .error e
              | .ok cs => .ok (c :: cs) := rfl
        rw [hstep, hread, he]

theorem compileHbsTemplate_read_error (hbs : String → DataMap → String) (st : BuildSettings)
    (fs : FS) (p : HbsParams) (h : lookupFile fs (resolve p.source st.src) = none) :
    compileHbsTemplate hbs st fs p = .error (.enoent (resolve p.source st.src)) := by
  have hstep : compileHbsTemplate hbs st fs p =
      match lookupFile fs (resolve p.source st.src) with
      | none => .error (.enoent (resolve p.source st.src))
      | some sourceBody =>
        .ok ((hbs sourceBody (augment p.data (fileNameOf (resolve p.target st.dist))),
              resolve p.target st.dist),
             writeFile fs (resolve p.target st.dist)
               (hbs sourceBody (augment p.data (fileNameOf (resolve p.target st.dist))))) := rfl
  rw [hstep, h]

/-! ## Claims -/

/-- C1 (counterexample): path resolution is **not** idempotent for every path:
with root `"src"` and path `".."`, the first resolution joins and normalizes to
`"."`, and resolving `"."` against `"src"` again yields `"src"`, so
`resolve (resolve ".." "src") "src" ≠ resolve ".." "src"`. -/
theorem resolve_idem_cex : resolve (resolve ".." "src") "src" ≠ resolve ".." "src" := by
  decide

/-- C1 (amended): path resolution is idempotent for every path `p` and root
whose resolved path starts with the normalized root as a character prefix —
that is, whenever joining and normalizing does not climb above the root (which
only leading `".."` segments can cause):
`resolve (resolve p root) root = resolve p root`. -/
theorem resolve_idem_rooted (p root : String)
    (h : strStartsWith (resolve p root) (normalize root) = true) :
    resolve (resolve p root) root = resolve p root := by
  have hn : normalize (resolve p root) = resolve p root := resolve_normalized p root
  have hstep : resolve (resolve p root) root =
      if strStartsWith (normalize (resolve p root)) (normalize root) = true
      then normalize (resolve p root)
      else joinP (normalize root) (normalize (resolve p root)) := rfl
  rw [hstep, hn, if_pos h]

/-- Witness for C1 (amended) at `p = "a"`, `root = "src"`: the resolved path
`"src/a"` starts with `"src"`, and resolving it again returns it unchanged. -/
theorem resolve_idem_rooted_witness :
    strStartsWith (resolve "a" "src") (normalize "src") = true ∧
      resolve (resolve "a" "src") "src" = resolve "a" "src" :=
  ⟨by decide, resolve_idem_rooted "a" "src" (by decide)⟩

/-- C2: the resolver uses a plain string-prefix test: whenever the normalized
candidate starts with the normalized root as a character prefix, the resolver
returns the normalized candidate unchanged instead of joining it under the
root — including for a sibling path such as `"src-other/x"` with root `"src"`
(see the witness). -/
theorem resolve_prefix_keeps (p root : String)
    (h : strStartsWith (normalize p) (normalize root) = true) :
    resolve p root = normalize p := by
  unfold resolve
  rw [if_pos h]

/-- Witness for C2 at the sibling path: root `"src"`, candidate
`"src-other/x"` (not under `"src"`, but sharing it as a string prefix) is
returned unchanged rather than joined to `"src/src-other/x"`. -/
theorem resolve_prefix_keeps_witness :
    strStartsWith (normalize "src-other/x") (normalize "src") = true ∧
      resolve "src-other/x" "src" = normalize "src-other/x" ∧
      normalize "src-other/x" = "src-other/x" :=
  ⟨by decide, resolve_prefix_keeps "src-other/x" "src" (by decide), by decide⟩

/-- C3 (counterexample): `content` present does **not** always take
precedence: with `content = some ""` (present but empty) the JS `||` falls
through and the text read from `srcPath` is minified instead — with the
identity minifier and `a.js` holding `"var x"`, the result is `"var x"`, not
the present content `""`. -/
theorem minify_content_empty_cex :
    minifyJsContent (fun s => s) [("a.js", "var x")]
        { content := some "", srcPath := some "a.js", distPath := none } =
      .ok ("var x", [("a.js", "var x")]) ∧ ("var x" : String) ≠ "" := by
  exact ⟨rfl, by decide⟩

/-- C3 (amended): for `minifyJsContent` and `minifyCssContent`, `content`
takes precedence exactly when it is present and nonempty; when it is absent
(or empty) the text is read from `srcPath`; the minified result is always
returned, and is additionally written at `distPath` when one is provided. -/
theorem minify_source_selection (jsMin cssMin : String → String) (fs : FS)
    (src dist : Option String) (c t d out : String) (hc : c ≠ "")
    (hs : readFileSync fs src = .ok t) :
    minifyJsContent jsMin fs { content := some c, srcPath := src, distPath := dist } =
        .ok (jsMin c, distWrite fs dist (jsMin c)) ∧
      minifyCssContent cssMin fs { content := some c, srcPath := src, distPath := dist } =
        .ok (cssMin c, distWrite fs dist (cssMin c)) ∧
      minifyJsContent jsMin fs { content := none, srcPath := src, distPath := dist } =
        .ok (jsMin t, distWrite fs dist (jsMin t)) ∧
      minifyCssContent cssMin fs { content := none, srcPath := src, distPath := dist } =
        .ok (cssMin t, distWrite fs dist (cssMin t)) ∧
      lookupFile (distWrite fs (some d) out) d = some out := by
  have hpick : pickMinifySource fs (some c) src = .ok c := by
    have h' : pickMinifySource fs (some c) src =
        if c = "" then readFileSync fs src else .ok c := rfl
    rw [h', if_neg hc]
  have hpick2 : pickMinifySource fs none src = .ok t := hs
  refine ⟨?_, ?_, ?_, ?_, ?_⟩
  · have hstep : minifyJsContent jsMin fs { content := some c, srcPath := src, distPath := dist } =
        match pickMinifySource fs (some c) src with
        | .error e => .error e
        | .ok text => .ok (jsMin text, distWrite fs dist (jsMin text)) := rfl
    rw [hstep, hpick]
  · have hstep : minifyCssContent cssMin fs { content := some c, srcPath := src, distPath := dist } =
        match pickMinifySource fs (some c) src with
        | .error e => .error e
        | .ok text => .ok (cssMin text, distWrite fs dist (cssMin text)) := rfl
    rw [hstep, hpick]
  · have hstep : minifyJsContent jsMin fs { content := none, srcPath := src, distPath := dist } =
        match pickMinifySource fs none src with
        | .error e => .error e
        | .ok text => .ok (jsMin text, distWrite fs dist (jsMin text)) := rfl
    rw [hstep, hpick2]
  · have hstep : minifyCssContent cssMin fs { content := none, srcPath := src, distPath := dist } =
        match pickMinifySource fs none src with
        | .error e => .error e
        | .ok text => .ok (cssMin text, distWrite fs dist (cssMin text)) := rfl
    rw [hstep, hpick2]
  · show lookupFile (writeFile fs d out) d = some out
    unfold writeFile lookupFile
    rw [if_pos rfl]

/-- Witness for C3 (amended) with the identity minifiers, `content = "abc"`,
`srcPath = "s.js"` holding `"qq"` and `distPath = "d.js"`. -/
theorem minify_source_selection_witness :
    (("abc" : String) ≠ "") ∧
      readFileSync [("s.js", "qq")] (some "s.js") = .ok "qq" ∧
      (minifyJsContent (fun s => s) [("s.js", "qq")]
          { content := some "abc", srcPath := some "s.js", distPath := some "d.js" } =
          .ok ("abc", distWrite [("s.js", "qq")] (some "d.js") "abc") ∧
        minifyCssContent (fun s => s) [("s.js", "qq")]
          { content := some "abc", srcPath := some "s.js", distPath := some "d.js" } =
          .ok ("abc", distWrite [("s.js", "qq")] (some "d.js") "abc") ∧
        minifyJsContent (fun s => s) [("s.js", "qq")]
          { content := none, srcPath := some "s.js", distPath := some "d.js" } =
          .ok ("qq", distWrite [("s.js", "qq")] (some "d.js") "qq") ∧
        minifyCssContent (fun s => s) [("s.js", "qq")]
          { content := none, srcPath := some "s.js", distPath := some "d.js" } =
          .ok ("qq", distWrite [("s.js", "qq")] (some "d.js") "qq") ∧
        lookupFile (distWrite [("s.js", "qq")] (some "d.js") "out") "d.js" = some "out") :=
  ⟨by decide, rfl,
    minify_source_selection (fun s => s) (fun s => s) [("s.js", "qq")]
      (some "s.js") (some "d.js") "abc" "qq" "d.js" "out" (by decide) rfl⟩

/-- C4: `buildCustomCssFromScss` does **not** use a supplied `data` as the
source — line 130 parses as `data = (data || file) ? fs.readFileSync(file, ...) : null`,
so with both `file` (content `"filecss"`) and `data = "bodycss"` supplied the
compiler receives the file's content `"filecss"` instead of `"bodycss"`, and
with `data` alone supplied the eager read of the `undefined` `file` path
throws instead of compiling `data`. -/
theorem scss_data_overwritten :
    buildCustomCssFromScss [("f.scss", "filecss")]
        { file := some "f.scss", data := some "bodycss" } =
      .ok { file := some "f.scss", data := some "filecss", outputStyle := "compressed",
            outFile := none, sourceMap := none, sourceMapContents := none } ∧
      buildCustomCssFromScss [] { data := some "bodycss" } = .error .invalidPath := by
  exact ⟨rfl, rfl⟩

/-- C5: `concatFilesContent` on a request containing a literal (non-token)
entry missing from the file system fails with an `IOErr` and leaves the file
system unchanged — in particular nothing is written at `distPath`, no matter
how many earlier entries were readable. -/
theorem concat_missing_aborts (b3 : String) (fs : FS) (entries : List String) (d : Option String)
    (h : ∃ f ∈ entries, f ≠ "bootstrap3" ∧ lookupFile fs f = none) :
    ∃ e, concatFilesContent b3 fs { filesArr := some entries, distPath := d } = (.error e, fs) := by
  obtain ⟨e, he⟩ := readAll_missing b3 fs entries h
  refine ⟨e, ?_⟩
  have hstep : concatFilesContent b3 fs { filesArr := some entries, distPath := d } =
      match readAll b3 fs entries with
      | .error e => (.error e, fs)
      | .ok cs => (.ok (joinNL cs), distWrite fs d (joinNL cs)) := rfl
  rw [hstep, he]

/-- Witness for C5: entries `["a", "missing"]` where `"a"` reads fine and
`"missing"` is absent, with a `distPath`: the request errors and the file
system is returned unchanged (no file at `"out.css"`). -/
theorem concat_missing_aborts_witness :
    (∃ f ∈ ["a", "missing"], f ≠ "bootstrap3" ∧ lookupFile [("a", "A")] f = none) ∧
      ∃ e, concatFilesContent "" [("a", "A")]
          { filesArr := some ["a", "missing"], distPath := some "out.css" } =
        (.error e, [("a", "A")]) :=
  ⟨⟨"missing", by decide, by decide, rfl⟩,
    concat_missing_aborts "" [("a", "A")] ["a", "missing"] (some "out.css")
      ⟨"missing", by decide, by decide, rfl⟩⟩

/-- C6: `concatFilesContent` preserves entry order and joins with a single
newline: for entries `[a, b, c]` reading `A`, `B`, `C`, the returned text is
`A ++ "\n" ++ B ++ "\n" ++ C`, and when a `distPath` is given the same text is
written there. -/
theorem concat_order_join (b3 : String) (fs : FS) (a b c A B C : String)
    (dOpt : Option String) (d : String)
    (ha : a ≠ "bootstrap3") (hb : b ≠ "bootstrap3") (hc : c ≠ "bootstrap3")
    (hA : lookupFile fs a = some A) (hB : lookupFile fs b = some B)
    (hC : lookupFile fs c = some C) :
    (concatFilesContent b3 fs { filesArr := some [a, b, c], distPath := dOpt }).1 =
        .ok (A ++ "\n" ++ B ++ "\n" ++ C) ∧
      (dOpt = some d →
        lookupFile (concatFilesContent b3 fs { filesArr := some [a, b, c], distPath := dOpt }).2 d =
          some (A ++ "\n" ++ B ++ "\n" ++ C)) := by
  have hrA : readFileSync fs (some a) = .ok A := by
    have h' : readFileSync fs (some a) =
        (match lookupFile fs a with
          | some v => Except.ok v
          | none => Except.error (.enoent a)) := rfl
    rw [h', hA]
  have hrB : readFileSync fs (some b) = .ok B := by
    have h' : readFileSync fs (some b) =
        (match lookupFile fs b with
          | some v => Except.ok v
          | none => Except.error (.enoent b)) := rfl
    rw [h', hB]
  have hrC : readFileSync fs (some c) = .ok C := by
    have h' : readFileSync fs (some c) =
        (match lookupFile fs c with
          | some v => Except.ok v
          | none => Except.error (.enoent c)) := rfl
    rw [h', hC]
  have t1 : readAll b3 fs [c] = .ok [C] := by
    have h' : readAll b3 fs [c] =
        match (if c = "bootstrap3" then Except.ok b3 else readFileSync fs (some c)) with
        | .error e => .error e
        | .ok v =>
          match readAll b3 fs [] with
          | .error e => .error e
          | .ok cs => .ok (v :: cs) := rfl
    rw [h', if_neg hc, hrC]
    rfl
  have t2 : readAll b3 fs [b, c] = .ok [B, C] := by
    have h' : readAll b3 fs [b, c] =
        match (if b = "bootstrap3" then Except.ok b3 else readFileSync fs (some b)) with
        | .error e => .error e
        | .ok v =>
          match readAll b3 fs [c] with
          | .error e => .error e
          | .ok cs => .ok (v :: cs) := rfl
    rw [h', if_neg hb, hrB, t1]
  have hread : readAll b3 fs [a, b, c] = .ok [A, B, C] := by
    have h' : readAll b3 fs [a, b, c] =
        match (if a = "bootstrap3" then Except.ok b3 else readFileSync fs (some a)) with
        | .error e => .error e
        | .ok v =>
          match readAll b3 fs [b, c] with
          | .error e => .error e
          | .ok cs => .ok (v :: cs) := rfl
    rw [h', if_neg ha, hrA, t2]
  have hjoin : joinNL [A, B, C] = A ++ "\n" ++ B ++ "\n" ++ C := by
    show (A ++ "\n") ++ ((B ++ "\n") ++ C) = A ++ "\n" ++ B ++ "\n" ++ C
    rw [String.append_assoc ((A ++ "\n") ++ B) "\n" C,
      String.append_assoc (A ++ "\n") B ("\n" ++ C),
      ← String.append_assoc B "\n" C]
  have heq : concatFilesContent b3 fs { filesArr := some [a, b, c], distPath := dOpt } =
      (.ok (joinNL [A, B, C]), distWrite fs dOpt (joinNL [A, B, C])) := by
    have hstep : concatFilesContent b3 fs { filesArr := some [a, b, c], distPath := dOpt } =
        match readAll b3 fs [a, b, c] with
        | .error e => (.error e, fs)
        | .ok cs => (.ok (joinNL cs), distWrite fs dOpt (joinNL cs)) := rfl
    rw [hstep, hread]
  rw [heq]
  constructor
  · show Except.ok (joinNL [A, B, C]) = .ok (A ++ "\n" ++ B ++ "\n" ++ C)
    rw [hjoin]
  · intro hd
    rw [hd]
    show lookupFile (writeFile fs d (joinNL [A, B, C])) d = some (A ++ "\n" ++ B ++ "\n" ++ C)
    unfold writeFile lookupFile
    rw [if_pos rfl, hjoin]

/-- Witness for C6 on a concrete file system with entries `["a", "b", "c"]`
holding `"A"`, `"B"`, `"C"` and `distPath = "out.css"`. -/
theorem concat_order_join_witness :
    (("a" : String) ≠ "bootstrap3") ∧
      lookupFile [("a", "A"), ("b", "B"), ("c", "C")] "a" = some "A" ∧
      ((concatFilesContent "" [("a", "A"), ("b", "B"), ("c", "C")]
            { filesArr := some ["a", "b", "c"], distPath := some "out.css" }).1 =
          .ok ("A" ++ "\n" ++ "B" ++ "\n" ++ "C") ∧
        (some "out.css" = some "out.css" →
          lookupFile (concatFilesContent "" [("a", "A"), ("b", "B"), ("c", "C")]
              { filesArr := some ["a", "b", "c"], distPath := some "out.css" }).2 "out.css" =
            some ("A" ++ "\n" ++ "B" ++ "\n" ++ "C"))) :=
  ⟨by decide, rfl,
    concat_order_join "" [("a", "A"), ("b", "B"), ("c", "C")] "a" "b" "c" "A" "B" "C"
      (some "out.css") "out.css" (by decide) (by decide) (by decide) rfl rfl rfl⟩

/-- C7: `compileHbsTemplates` is sequential and fail-fast: if the jobs `pre`
all succeed from state `fs`, ending in state `fs'`, and the next job `jk`
fails there (its resolved source is absent), then for **any** trailing jobs
`post` the batch on `pre ++ jk :: post` rejects with `jk`'s read error and the
final file system is exactly `fs'` — the jobs after `jk` are never rendered
and nothing is written for them, while `pre`'s committed writes remain. -/
theorem hbs_batch_failfast (hbs : String → DataMap → String) (st : BuildSettings)
    (data : DataMap) : ∀ (pre : List HbsFile) (fs fs' : FS) (rs : List (String × String))
    (jk : HbsFile) (post : List HbsFile),
    compileHbsTemplates hbs st data fs pre = (.ok rs, fs') →
    lookupFile fs' (resolve jk.source st.src) = none →
    compileHbsTemplates hbs st data fs (pre ++ jk :: post) =
      (.error (.enoent (resolve jk.source st.src)), fs') := by
  intro pre
  induction pre with
  | nil =>
    intro fs fs' rs jk post hpre hfail
    rw [show compileHbsTemplates hbs st data fs [] =
      ((Except.ok [] : Except IOErr (List (String × String))), fs) from rfl] at hpre
    injection hpre with h1 h2
    subst h2
    rw [List.nil_append]
    have hstep : compileHbsTemplates hbs st data fs (jk :: post) =
        match compileHbsTemplate hbs st fs
            { source := jk.source, target := jk.target, data := data } with
        | .error e => (.error e, fs)
        | .ok (res, fs₁) =>
          match compileHbsTemplates hbs st data fs₁ post with
          | (.error e, fs₂) => (.error e, fs₂)
          | (.ok rs2, fs₂) => (.ok (res :: rs2), fs₂) := rfl
    rw [hstep, compileHbsTemplate_read_error hbs st fs _ hfail]
  | cons f pre' ih =>
    intro fs fs' rs jk post hpre hfail
    rw [List.cons_append]
    have hstep : ∀ (l : List HbsFile), compileHbsTemplates hbs st data fs (f :: l) =
        match compileHbsTemplate hbs st fs
            { source := f.source, target := f.target, data := data } with
        | .error e => (.error e, fs)
        | .ok (res, fs₁) =>
          match compileHbsTemplates hbs st data fs₁ l with
          | (.error e, fs₂) => (.error e, fs₂)
          | (.ok rs2, fs₂) => (.ok (res :: rs2), fs₂) := fun _ => rfl
    rw [hstep] at hpre
    rw [hstep]
    cases hcall : compileHbsTemplate hbs st fs
        { source := f.source, target := f.target, data := data } with
    | error e =>
      rw [hcall] at hpre
      simp at hpre
    | ok resfs =>
      obtain ⟨res, fs₁⟩ := resfs
      rw [hcall] at hpre
      have hpre2 : (match compileHbsTemplates hbs st data fs₁ pre' with
          | (Except.error e, fs₂) => ((Except.error e : Except IOErr (List (String × String))), fs₂)
          | (Except.ok rs2, fs₂) => (Except.ok (res :: rs2), fs₂)) = (Except.ok rs, fs') := hpre
      show (match compileHbsTemplates hbs st data fs₁ (pre' ++ jk :: post) with
          | (Except.error e, fs₂) => ((Except.error e : Except IOErr (List (String × String))), fs₂)
          | (Except.ok rs2, fs₂) => (Except.ok (res :: rs2), fs₂)) =
        (Except.error (IOErr.enoent (resolve jk.source st.src)), fs')
      cases hrec : compileHbsTemplates hbs st data fs₁ pre' with
      | mk r2 fs₂ =>
        rw [hrec] at hpre2
        cases r2 with
        | error e => simp at hpre2
        | ok rs2 =>
          simp only [Prod.mk.injEq] at hpre2
          obtain ⟨hrs, hfs2⟩ := hpre2
          subst hfs2
          rw [ih fs₁ fs₂ rs2 jk post hrec hfail]

/-- Witness for C7: `pre` renders `src/t1.hbs` to `dist/o1.html`, the second
job's source `src/missing.hbs` is absent, and a third job follows: the batch
rejects with the missing-file error, the state keeps `pre`'s write and no file
is written for the later jobs. -/
theorem hbs_batch_failfast_witness :
    compileHbsTemplates (fun b _ => b) {} (fun _ => none) [("src/t1.hbs", "T1")]
        [⟨"t1.hbs", "o1.html"⟩] =
      (.ok [("T1", "dist/o1.html")], [("dist/o1.html", "T1"), ("src/t1.hbs", "T1")]) ∧
      lookupFile [("dist/o1.html", "T1"), ("src/t1.hbs", "T1")]
        (resolve "missing.hbs" ({} : BuildSettings).src) = none ∧
      compileHbsTemplates (fun b _ => b) {} (fun _ => none) [("src/t1.hbs", "T1")]
          ([⟨"t1.hbs", "o1.html"⟩] ++ ⟨"missing.hbs", "o2.html"⟩ :: [⟨"t1.hbs", "o3.html"⟩]) =
        (.error (.enoent (resolve "missing.hbs" ({} : BuildSettings).src)),
         [("dist/o1.html", "T1"), ("src/t1.hbs", "T1")]) :=
  ⟨rfl, rfl,
    hbs_batch_failfast (fun b _ => b) {} (fun _ => none) [⟨"t1.hbs", "o1.html"⟩]
      [("src/t1.hbs", "T1")] [("dist/o1.html", "T1"), ("src/t1.hbs", "T1")]
      [("T1", "dist/o1.html")] ⟨"missing.hbs", "o2.html"⟩ [⟨"t1.hbs", "o3.html"⟩] rfl rfl⟩

/-- C8: `compileHbsTemplate` on a request whose resolved source is absent
from the file system rejects with exactly the read error (an `IOErr.enoent`
carrying the resolved source path) — it neither succeeds nor fails some other
way, and nothing is written. -/
theorem hbs_missing_source_errors (hbs : String → DataMap → String) (st : BuildSettings)
    (fs : FS) (p : HbsParams) (h : lookupFile fs (resolve p.source st.src) = none) :
    compileHbsTemplate hbs st fs p = .error (.enoent (resolve p.source st.src)) :=
  compileHbsTemplate_read_error hbs st fs p h

/-- Witness for C8: default settings, empty file system, source
`"missing.hbs"` resolving to `"src/missing.hbs"`. -/
theorem hbs_missing_source_errors_witness :
    lookupFile [] (resolve "missing.hbs" ({} : BuildSettings).src) = none ∧
      compileHbsTemplate (fun b _ => b) {} []
          { source := "missing.hbs", target := "o.html", data := fun _ => none } =
        .error (.enoent (resolve "missing.hbs" ({} : BuildSettings).src)) :=
  ⟨rfl, hbs_missing_source_errors (fun b _ => b) {} []
    { source := "missing.hbs", target := "o.html", data := fun _ => none } rfl⟩

/-- C9: when the resolved source reads `body`, `compileHbsTemplate` renders
with the context `augment p.data (fileNameOf target)` for the *resolved*
target: a fresh mapping equal to the caller's data on every key other than
`"fileName"` (the caller's data object is a pure value and is returned to the
caller untouched) and mapping `"fileName"` to the resolved target's base name
plus extension. -/
theorem hbs_context_augment (hbs : String → DataMap → String) (st : BuildSettings)
    (fs : FS) (p : HbsParams) (body : String) (k : String) (hk : k ≠ "fileName")
    (h : lookupFile fs (resolve p.source st.src) = some body) :
    compileHbsTemplate hbs st fs p =
        .ok ((hbs body (augment p.data (fileNameOf (resolve p.target st.dist))),
              resolve p.target st.dist),
             writeFile fs (resolve p.target st.dist)
               (hbs body (augment p.data (fileNameOf (resolve p.target st.dist))))) ∧
      augment p.data (fileNameOf (resolve p.target st.dist)) "fileName" =
        some (JVal.str (fileNameOf (resolve p.target st.dist))) ∧
      augment p.data (fileNameOf (resolve p.target st.dist)) k = p.data k := by
  refine ⟨?_, ?_, ?_⟩
  · have hstep : compileHbsTemplate hbs st fs p =
        match lookupFile fs (resolve p.source st.src) with
        | none => .error (.enoent (resolve p.source st.src))
        | some sourceBody =>
          .ok ((hbs sourceBody (augment p.data (fileNameOf (resolve p.target st.dist))),
                resolve p.target st.dist),
               writeFile fs (resolve p.target st.dist)
                 (hbs sourceBody (augment p.data (fileNameOf (resolve p.target st.dist))))) := rfl
    rw [hstep, h]
  · unfold augment
    rw [if_pos rfl]
  · unfold augment
    rw [if_neg hk]

/-- Witness for C9: default settings, `src/t.hbs` holding `"T"`, the target
`"page.html"` resolving to `"dist/page.html"` with base name `"page.html"`,
caller data holding only `"author"`. -/
theorem hbs_context_augment_witness :
    (("author" : String) ≠ "fileName") ∧
      lookupFile [("src/t.hbs", "T")]
        (resolve "t.hbs" ({} : BuildSettings).src) = some "T" ∧
      (compileHbsTemplate (fun b _ => b) {} [("src/t.hbs", "T")]
          { source := "t.hbs", target := "page.html",
            data := fun k => if k = "author" then some (JVal.str "ann") else none } =
          .ok (((fun (b : String) (_ : DataMap) => b) "T"
                  (augment (fun k => if k = "author" then some (JVal.str "ann") else none)
                    (fileNameOf (resolve "page.html" ({} : BuildSettings).dist))),
                resolve "page.html" ({} : BuildSettings).dist),
               writeFile [("src/t.hbs", "T")] (resolve "page.html" ({} : BuildSettings).dist)
                 ((fun (b : String) (_ : DataMap) => b) "T"
                   (augment (fun k => if k = "author" then some (JVal.str "ann") else none)
                     (fileNameOf (resolve "page.html" ({} : BuildSettings).dist))))) ∧
        augment (fun k => if k = "author" then some (JVal.str "ann") else none)
            (fileNameOf (resolve "page.html" ({} : BuildSettings).dist)) "fileName" =
          some (JVal.str (fileNameOf (resolve "page.html" ({} : BuildSettings).dist))) ∧
        augment (fun k => if k = "author" then some (JVal.str "ann") else none)
            (fileNameOf (resolve "page.html" ({} : BuildSettings).dist)) "author" =
          (fun k => if k = "author" then some (JVal.str "ann") else none) "author") :=
  ⟨by decide, rfl,
    hbs_context_augment (fun b _ => b) {} [("src/t.hbs", "T")]
      { source := "t.hbs", target := "page.html",
        data := fun k => if k = "author" then some (JVal.str "ann") else none }
      "T" "author" (by decide) rfl⟩

/-- C10: the augmented context's `"fileName"` entry equals the resolved
target's base name plus extension even when the caller's data already holds
its own `"fileName"` value — the literal written after the spread overrides
the spread-in entry for every input mapping. -/
theorem hbs_fileName_override (st : BuildSettings) (p : HbsParams) (v : JVal)
    (_h : p.data "fileName" = some v) :
    augment p.data (fileNameOf (resolve p.target st.dist)) "fileName" =
      some (JVal.str (fileNameOf (resolve p.target st.dist))) := by
  unfold augment
  rw [if_pos rfl]

/-- Witness for C10: caller data already maps `"fileName"` to `"mine.txt"`;
the merged context maps it to the resolved target's base name instead. -/
theorem hbs_fileName_override_witness :
    ((fun k => if k = "fileName" then some (JVal.str "mine.txt") else none) "fileName" =
        some (JVal.str "mine.txt")) ∧
      augment (fun k => if k = "fileName" then some (JVal.str "mine.txt") else none)
          (fileNameOf (resolve "t.html" ({} : BuildSettings).dist)) "fileName" =
        some (JVal.str (fileNameOf (resolve "t.html" ({} : BuildSettings).dist))) :=
  ⟨rfl,
    hbs_fileName_override {}
      { source := "s.hbs", target := "t.html",
        data := fun k => if k = "fileName" then some (JVal.str "mine.txt") else none }
      (JVal.str "mine.txt") rfl⟩

end SpBuild
